import Mathlib

/-!
Verification of the OneApp readable-article extraction and caching engine
(`src/reader.rs`, `src/main.rs`), as a shallow embedding in Lean 4.

Modelling conventions:
* Rust `String`/`&str` values are modelled as `List Char` (`Str`), with
  UTF-8 byte lengths (`strBytes`) where the source calls `str::len`, and
  scalar-value counts (`List.length`) where the source calls `chars().count()`.
* `usize` arithmetic is modelled over `Nat`; `i64` saturating arithmetic is
  modelled over `Int` with explicit clamping to the `i64` range.
* `f32` scoring arithmetic in `score_candidate` is modelled over exact
  rationals (`ℚ`); the control flow and comparison structure of the source
  is preserved verbatim.
* The file-system, HTTP transport and HTML parser are external capabilities;
  functions receive their results (responses, cache-read results, parsed
  element trees) as explicit values.
-/

namespace OneApp

/-- Rust string contents, as a list of Unicode scalar values. -/
abbrev Str := List Char

/-- UTF-8 encoded length of a single scalar value. -/
def utf8Len (c : Char) : Nat :=
  if c.toNat < 0x80 then 1
  else if c.toNat < 0x800 then 2
  else if c.toNat < 0x10000 then 3
  else 4

/-- `str::len` — UTF-8 byte length of a string. -/
def strBytes (s : Str) : Nat := (s.map utf8Len).sum

/-- `u8::to_ascii_lowercase`, per character. -/
def asciiLowerChar (c : Char) : Char :=
  if 'A' ≤ c ∧ c ≤ 'Z' then Char.ofNat (c.toNat + 32) else c

/-- `str::to_ascii_lowercase`. -/
def asciiLower (s : Str) : Str := s.map asciiLowerChar

/-- Does `hay` start with `needle`? (Helper for `str::contains`.) -/
def startsWith : Str → Str → Bool
  | _, [] => true
  | [], _ :: _ => false
  | c :: cs, d :: ds => c = d && startsWith cs ds

/-- `str::contains(needle)` — substring test.  For the ASCII needles used in
this module a byte-level match coincides with this scalar-value-level match. -/
def containsSub : Str → Str → Bool
  | [], needle => startsWith [] needle
  | c :: cs, needle => startsWith (c :: cs) needle || containsSub cs needle

/-- The whitespace-collapsing loop body of `normalize_whitespace`
(`reader.rs`): any run of whitespace becomes a single ASCII space.  The
`Bool` argument is the `last_was_space` flag. -/
def collapseWS : Bool → Str → Str
  | _, [] => []
  | lastSp, c :: cs =>
    if c.isWhitespace then
      if lastSp then collapseWS true cs else ' ' :: collapseWS true cs
    else
      c :: collapseWS false cs

/-- `str::trim_end`: drop trailing whitespace. -/
def dropTrailingWS : Str → Str
  | [] => []
  | c :: cs =>
    let r := dropTrailingWS cs
    if r = [] then (if c.isWhitespace then [] else [c]) else c :: r

/-- `str::trim`: drop leading and trailing whitespace. -/
def trimWS (s : Str) : Str := dropTrailingWS (s.dropWhile Char.isWhitespace)

/-- `normalize_whitespace` (`reader.rs`): collapse whitespace runs to single
spaces, then trim. -/
def normalize_whitespace (s : Str) : Str := trimWS (collapseWS false s)

/-- `str::split_whitespace`, with an accumulator for the current word
(stored reversed). -/
def wordsAux : Str → Str → List Str
  | [], cur => if cur = [] then [] else [cur.reverse]
  | c :: cs, cur =>
    if c.isWhitespace then
      if cur = [] then wordsAux cs [] else cur.reverse :: wordsAux cs []
    else
      wordsAux cs (c :: cur)

/-- `str::split_whitespace` as a list of words. -/
def wordsOf (s : Str) : List Str := wordsAux s []

/-- `split_whitespace().count()`. -/
def wordCount (s : Str) : Nat := (wordsOf s).length

/-- `MAX_BLOCKS` (`reader.rs`). -/
def MAX_BLOCKS : Nat := 300

/-- `DISK_CACHE_TTL_SECS` (`reader.rs`): 24 * 60 * 60. -/
def DISK_CACHE_TTL_SECS : Int := 24 * 60 * 60

/-- `POSITIVE_KEYWORDS` (`reader.rs`). -/
def POSITIVE_KEYWORDS : List Str :=
  ["article", "body", "content", "entry", "main", "page", "post", "read",
   "story", "text"].map String.data

/-- `NEGATIVE_KEYWORDS` (`reader.rs`). -/
def NEGATIVE_KEYWORDS : List Str :=
  ["ad", "ads", "advert", "banner", "cookie", "comment", "footer", "header",
   "masthead", "menu", "modal", "nav", "newsletter", "pagination", "popup",
   "promo", "recommend", "related", "share", "sidebar", "social", "sponsor",
   "subscribe", "toolbar", "widget"].map String.data

/-- `ReaderBlock` (`reader.rs`). -/
inductive ReaderBlock where
  | Heading (level : Nat) (text : Str)
  | Paragraph (text : Str)
  | Quote (text : Str)
  | List (ordered : Bool) (items : List Str)
  | Code (text : Str) (language : Option Str)
  | Image (url : Str) (alt : Option Str) (caption : Option Str)
  | Rule
deriving DecidableEq

/-- `ReaderArticle` (`reader.rs`). -/
structure ReaderArticle where
  title : Str
  byline : Option Str
  site_name : Option Str
  reading_time : Option Str
  blocks : List ReaderBlock
deriving DecidableEq

/-- The `alt`/`caption` re-validation inside `normalize_blocks`:
`opt.and_then(|s| { let s = normalize_whitespace(&s); (!s.is_empty()).then_some(s) })`. -/
def optNormalized (s : Option Str) : Option Str :=
  s.bind fun t =>
    let t := normalize_whitespace t
    if t = [] then none else some t

/-- The per-kind cleanup performed on one block by `normalize_blocks`
(`reader.rs`): `none` means the block is dropped. -/
def cleanBlock : ReaderBlock → Option ReaderBlock
  | .Heading level text =>
    let t := normalize_whitespace text
    if t = [] then none else some (.Heading level t)
  | .Paragraph text =>
    let t := normalize_whitespace text
    if t = [] then none else some (.Paragraph t)
  | .Quote text =>
    let t := trimWS text
    if t = [] then none else some (.Quote t)
  | .List ordered items =>
    let items := (((items.map normalize_whitespace).filter fun s => s ≠ []).take 100)
    if items = [] then none else some (.List ordered items)
  | .Code text language =>
    let t := trimWS text
    if t = [] then none else some (.Code t language)
  | .Image url alt caption =>
    if trimWS url = [] then none
    else some (.Image url (optNormalized alt) (optNormalized caption))
  | .Rule => some .Rule

/-- The consecutive-duplicate-paragraph test of `normalize_blocks`:
`matches!((prev, block), (Paragraph(a), Paragraph(b)) if a == b)` with
`prev = out.last()`. -/
def isDupPar : Option ReaderBlock → ReaderBlock → Bool
  | some (.Paragraph a), .Paragraph b => decide (a = b)
  | _, _ => false

/-- The loop of `normalize_blocks`, with the output accumulated in reverse
(so `out.last()` is the accumulator's head; `push` is `cons`).  After a push
the loop stops once `out.len() >= MAX_BLOCKS`. -/
def normRev : List ReaderBlock → List ReaderBlock → List ReaderBlock
  | acc, [] => acc
  | acc, b :: rest =>
    match cleanBlock b with
    | none => normRev acc rest
    | some c =>
      if isDupPar acc.head? c then normRev acc rest
      else if (c :: acc).length ≥ MAX_BLOCKS then c :: acc
      else normRev (c :: acc) rest

/-- `normalize_blocks` (`reader.rs`). -/
def normalize_blocks (blocks : List ReaderBlock) : List ReaderBlock :=
  (normRev [] blocks).reverse

/-- The `add_text` closure of `estimate_reading_time` (`reader.rs`): adds the
word count and the `chars().count()` of one string to the accumulator. -/
def add_text (acc : Nat × Nat) (text : Str) : Nat × Nat :=
  (acc.1 + wordCount text, acc.2 + text.length)

/-- One iteration of the block loop of `estimate_reading_time`. -/
def countBlock (acc : Nat × Nat) : ReaderBlock → Nat × Nat
  | .Heading _ text => add_text acc text
  | .Paragraph text => add_text acc text
  | .Quote text => add_text acc text
  | .List _ items => items.foldl add_text acc
  | .Code text _ => add_text acc text
  | .Image _ alt caption =>
    let acc := match alt with
      | some a => add_text acc a
      | none => acc
    match caption with
    | some c => add_text acc c
    | none => acc
  | .Rule => acc

/-- `estimate_reading_time` (`reader.rs`). -/
def estimate_reading_time (blocks : List ReaderBlock) : Option Str :=
  let wc := blocks.foldl countBlock (0, 0)
  let words := wc.1
  let chars := wc.2
  if words = 0 ∧ chars = 0 then none
  else
    let minutes_by_words := (words + 199) / 200
    let minutes_by_chars := (chars + 999) / 1000
    let minutes := max (max minutes_by_words minutes_by_chars) 1
    some ((Nat.repr minutes).data ++ (" min read").data)

/-- Smallest `i64` value. -/
def i64Min : Int := -(2 ^ 63)

/-- Largest `i64` value. -/
def i64Max : Int := 2 ^ 63 - 1

/-- Membership in the `i64` range. -/
def inI64 (n : Int) : Prop := i64Min ≤ n ∧ n ≤ i64Max

/-- `i64::saturating_sub`. -/
def i64SatSub (a b : Int) : Int := max i64Min (min i64Max (a - b))

/-- `DiskCacheEntry` (`reader.rs`). -/
structure DiskCacheEntry where
  fetched_at : Int
  article : ReaderArticle
deriving DecidableEq

/-- `is_cache_stale` (`reader.rs`).  `now` is the result of
`now_unix_secs()`; an unavailable clock (`none`) counts as stale. -/
def is_cache_stale (fetched_at : Int) (now : Option Int) : Bool :=
  match now with
  | none => true
  | some n => decide (i64SatSub n fetched_at > DISK_CACHE_TTL_SECS)

/-- `read_disk_cache` (`reader.rs`), given the parsed on-disk entry for the
URL (`none` models a missing or unreadable file) and the current time: a
stale entry is ignored, yielding a miss. -/
def read_disk_cache (entry : Option DiskCacheEntry) (now : Option Int) :
    Option ReaderArticle :=
  entry.bind fun e =>
    if is_cache_stale e.fetched_at now then none else some e.article

/-- `READER_CACHE_MAX_ENTRIES` (`main.rs`). -/
def READER_CACHE_MAX_ENTRIES : Nat := 32

/-- The in-memory article map (`HashMap<String, ReaderArticle>` in
`main.rs`), modelled as an association list with unique keys. -/
abbrev ArticleMap := List (Str × ReaderArticle)

/-- `HashMap::get`. -/
def mapGet (m : ArticleMap) (k : Str) : Option ReaderArticle :=
  (m.find? fun p => p.1 = k).map Prod.snd

/-- `HashMap::insert` (replacing any previous binding for the key). -/
def mapInsert (m : ArticleMap) (k : Str) (v : ReaderArticle) : ArticleMap :=
  (k, v) :: m.filter fun p => p.1 ≠ k

/-- `HashMap::remove`. -/
def mapRemove (m : ArticleMap) (k : Str) : ArticleMap :=
  m.filter fun p => p.1 ≠ k

/-- The in-memory reader-cache part of `AppState` (`main.rs`):
`reader_cache` plus `reader_cache_order`. -/
structure MemCache where
  reader_cache : ArticleMap
  reader_cache_order : List Str
deriving DecidableEq

/-- `AppState::touch_reader_cache` (`main.rs`): `retain(|u| u != url)` then
`push_back(url)`. -/
def touch_reader_cache (st : MemCache) (url : Str) : MemCache :=
  { st with
    reader_cache_order :=
      (st.reader_cache_order.filter fun u => u ≠ url) ++ [url] }

/-- The eviction loop of `AppState::cache_reader_article` (`main.rs`):
`while order.len() > READER_CACHE_MAX_ENTRIES { pop_front; remove }`. -/
def evictLoop : ArticleMap → List Str → ArticleMap × List Str
  | m, [] => (m, [])
  | m, u :: rest =>
    if (u :: rest).length > READER_CACHE_MAX_ENTRIES then
      evictLoop (mapRemove m u) rest
    else
      (m, u :: rest)

/-- `AppState::cache_reader_article` (`main.rs`). -/
def cache_reader_article (st : MemCache) (url : Str) (article : ReaderArticle) :
    MemCache :=
  let st := { st with reader_cache := mapInsert st.reader_cache url article }
  let st := touch_reader_cache st url
  let p := evictLoop st.reader_cache st.reader_cache_order
  { reader_cache := p.1, reader_cache_order := p.2 }

/-- The two cache tiers together.  `cache_reader_article` only touches the
in-memory tier; the on-disk entries are a separate component. -/
structure TwoTierState where
  mem : MemCache
  disk : List (Str × DiskCacheEntry)
deriving DecidableEq

/-- `cache_reader_article` acting on the whole two-tier state: the method on
`AppState` mutates only `reader_cache` and `reader_cache_order`. -/
def cache_reader_article_sys (st : TwoTierState) (url : Str)
    (article : ReaderArticle) : TwoTierState :=
  { st with mem := cache_reader_article st.mem url article }

/-- An HTTP response as seen by `load_article` after the transport returns:
status code, declared `content-type` header value (empty if absent), and the
already-read body text. -/
structure FetchResponse where
  status : Nat
  content_type : Str
  body : Str

/-- `http::StatusCode::is_success`. -/
def statusIsSuccess (status : Nat) : Bool := 200 ≤ status && status ≤ 299

/-- `load_article` (`reader.rs`) from the disk-cache lookup onward, for a
URL that already passed parsing and scheme validation.  `disk` is the result
of `read_disk_cache`; `extractHtml` and `plainText` stand for
`extract_html_article` and `plain_text_article` applied to the fetched body.
The returned `Bool` records whether the network fetch was performed. -/
def load_article (url : Str) (disk : Option ReaderArticle)
    (title_hint : Option Str) (resp : FetchResponse)
    (plainText extractHtml : Str → ReaderArticle) :
    Bool × Except Str ReaderArticle :=
  match disk with
  | some cached =>
    let cached :=
      if cached.title = [] then
        match title_hint with
        | some h => { cached with title := h }
        | none => cached
      else cached
    (false, .ok cached)
  | none =>
    if ¬statusIsSuccess resp.status then
      (true, .error (("HTTP ").data ++ (Nat.repr resp.status).data ++
        (" for ").data ++ url))
    else
      let ct := resp.content_type
      if containsSub ct ("text/plain").data then
        (true, .ok (plainText resp.body))
      else if ct ≠ [] ∧
          ¬(containsSub ct ("text/html").data ∨
            containsSub ct ("application/xhtml+xml").data) then
        (true, .error (("Unsupported content type: ").data ++ ct))
      else
        (true, .ok (extractHtml resp.body))

/-- The combined attribute text built by `is_unlikely_candidate`
(`reader.rs`): id, class and role, the first two followed by a space when
present. -/
def combinedAttrs (idA clsA roleA : Option Str) : Str :=
  (match idA with | some s => s ++ [' '] | none => []) ++
  (match clsA with | some s => s ++ [' '] | none => []) ++
  (match roleA with | some s => s | none => [])

/-- `is_unlikely_candidate` (`reader.rs`), as a function of the three
attribute values: builds the space-joined combined string, lowercases it and
tests the keyword lists. -/
def is_unlikely_attrs (idA clsA roleA : Option Str) : Bool :=
  let combined := asciiLower (combinedAttrs idA clsA roleA)
  (NEGATIVE_KEYWORDS.any fun kw => containsSub combined kw) &&
    !(POSITIVE_KEYWORDS.any fun kw => containsSub combined kw)

/-- The `always_bad` URL substrings of `is_likely_noise_image_url`. -/
def ALWAYS_BAD : List Str :=
  ["sprite", "favicon", "avatar", "badge", "spinner", "/ads/",
   "doubleclick"].map String.data

/-- The `maybe_bad` URL substrings of `is_likely_noise_image_url`. -/
def MAYBE_BAD : List Str := ["logo", "icon"].map String.data

/-- `is_likely_noise_image_url` (`reader.rs`).  Note that `alt.len() >= 8`
in the source is a UTF-8 byte count. -/
def is_likely_noise_image_url (url : Str) (alt caption : Option Str) : Bool :=
  let url_lower := asciiLower url
  if ALWAYS_BAD.any (fun k => containsSub url_lower k) then true
  else if MAYBE_BAD.any (fun k => containsSub url_lower k) then
    let has_context :=
      (match caption with | some c => decide (c ≠ []) | none => false) ||
      (match alt with | some a => decide (strBytes a ≥ 8) | none => false)
    !has_context
  else false

/-- The `alt` value computed by `extract_image` (`reader.rs`):
`attr("alt").map(normalize_whitespace).filter(|s| !s.is_empty())`. -/
def normalizedAlt (altAttr : Option Str) : Option Str :=
  altAttr.map normalize_whitespace |>.filter fun s => s ≠ []

/-- `extract_image` (`reader.rs`) after the source URL has been resolved to
an absolute URL: normalizes and filters the `alt` attribute, applies the
noise filter, and emits the `Image` block. -/
def extract_image (url : Str) (altAttr : Option Str) (caption : Option Str) :
    Option ReaderBlock :=
  let alt := normalizedAlt altAttr
  if is_likely_noise_image_url url alt caption then none
  else some (.Image url alt caption)

/-- A parsed HTML node as exposed by the `scraper` crate: an element with
tag name, the three attributes the scorer inspects, and children in document
order; or a text node. -/
inductive HNode where
  | elem (tag : Str) (idAttr clsAttr roleAttr : Option Str)
      (children : List HNode)
  | text (s : Str)

mutual

/-- `ElementRef::text()`: the descendant text nodes of a node, in document
order (an element contributes its subtree's text nodes). -/
def nodeTexts : HNode → List Str
  | .text s => [s]
  | .elem _ _ _ _ ch => listTexts ch

/-- Text nodes of a forest, in order. -/
def listTexts : List HNode → List Str
  | [] => []
  | n :: ns => nodeTexts n ++ listTexts ns

end

mutual

/-- All elements of a subtree in depth-first preorder (the traversal order
of `scraper`'s selector iteration), including the subtree root when it is an
element. -/
def nodeElems : HNode → List HNode
  | .text _ => []
  | .elem t i c r ch => .elem t i c r ch :: listElems ch

/-- All elements of a forest in depth-first preorder. -/
def listElems : List HNode → List HNode
  | [] => []
  | n :: ns => nodeElems n ++ listElems ns

end

/-- Tag name of a node (text nodes have none). -/
def tagOf : HNode → Str
  | .elem t _ _ _ _ => t
  | .text _ => []

/-- `id` attribute of a node. -/
def idOf : HNode → Option Str
  | .elem _ i _ _ _ => i
  | .text _ => none

/-- `class` attribute of a node. -/
def clsOf : HNode → Option Str
  | .elem _ _ c _ _ => c
  | .text _ => none

/-- `role` attribute of a node. -/
def roleOf : HNode → Option Str
  | .elem _ _ _ r _ => r
  | .text _ => none

/-- `element.select(selector)` for a tag-name-list selector: the strict
descendants of the node whose tag is one of `names`, in depth-first
preorder. -/
def selectDesc (n : HNode) (names : List Str) : List HNode :=
  match n with
  | .text _ => []
  | .elem _ _ _ _ ch => (listElems ch).filter fun m => names.contains (tagOf m)

/-- `element_text_len` (`reader.rs`): the summed byte lengths of the
whitespace-separated words of every descendant text node. -/
def element_text_len (n : HNode) : Nat :=
  ((nodeTexts n).map fun s => ((wordsOf s).map strBytes).sum).sum

/-- `count_commas` (`reader.rs`): ASCII and full-width commas in the
descendant text. -/
def count_commas (n : HNode) : Nat :=
  ((nodeTexts n).map fun s =>
    (s.filter fun ch => ch = ',' ∨ ch = '，').length).sum

/-- `keyword_weight` (`reader.rs`): +25 per positive keyword and −25 per
negative keyword found as a substring of the lowercased value. -/
def keyword_weight (value : Str) : Int :=
  let value := asciiLower value
  let w := POSITIVE_KEYWORDS.foldl
    (fun w kw => if containsSub value kw then w + 25 else w) (0 : Int)
  NEGATIVE_KEYWORDS.foldl
    (fun w kw => if containsSub value kw then w - 25 else w) w

/-- `class_id_weight` (`reader.rs`). -/
def class_id_weight (n : HNode) : Int :=
  let w : Int := 0
  let w := match idOf n with | some v => w + keyword_weight v | none => w
  let w := match clsOf n with | some v => w + keyword_weight v | none => w
  match roleOf n with | some v => w + keyword_weight v | none => w

/-- `is_unlikely_candidate` (`reader.rs`) on an element. -/
def is_unlikely_candidate (n : HNode) : Bool :=
  is_unlikely_attrs (idOf n) (clsOf n) (roleOf n)

/-- The `link_density` computed by `score_candidate`: total anchor text
length over total text length, clamped above by 1 (`f32` division modelled
exactly over ℚ; division by zero yields 0 as in ℚ, and the only use is
guarded by `text_len ≥ 120`). -/
def linkDensity (n : HNode) : ℚ :=
  let link_text_len :=
    (selectDesc n [("a").data]).foldl (fun acc a => acc + element_text_len a) 0
  min ((link_text_len : ℚ) / (element_text_len n : ℚ)) 1

/-- `score_candidate` (`reader.rs`), with `f32` arithmetic modelled over ℚ;
the branch structure follows the source line by line. -/
def score_candidate (candidate : HNode) : ℚ :=
  let ps := selectDesc candidate [("p").data]
  let stats := ps.foldl
    (fun (acc : Nat × Nat) p =>
      let len := element_text_len p
      if len < 20 then acc else (acc.1 + 1, acc.2 + len))
    (0, 0)
  let paragraph_count := stats.1
  let paragraph_text_len := stats.2
  let text_len := element_text_len candidate
  if text_len < 120 then 0
  else
    let link_density := linkDensity candidate
    if link_density > 3 / 4 then 0
    else
      let tag_bonus : ℚ :=
        if tagOf candidate = ("article").data then 800
        else if tagOf candidate = ("main").data then 650
        else if tagOf candidate = ("section").data then 250
        else 0
      let weight : ℚ := (class_id_weight candidate : ℤ)
      let score := tag_bonus
      let score := score + weight * 25
      let score := score + (paragraph_text_len : ℚ) * (1 - link_density)
      let score := score + (paragraph_count : ℚ) * 120
      let score := score + (count_commas candidate : ℚ) * 20
      let score := if paragraph_text_len < 400 then score * (85 / 100) else score
      let score := if link_density > 1 / 2 then score * (6 / 10) else score
      score

/-- The candidate loop of `select_best_root` (`reader.rs`): skip unlikely
elements and non-positive scores, keep the best score seen so far, a later
candidate replacing it only with a strictly greater score. -/
def bestOf : Option HNode → List HNode → Option HNode
  | best, [] => best
  | best, c :: rest =>
    if is_unlikely_candidate c then bestOf best rest
    else if score_candidate c ≤ 0 then bestOf best rest
    else
      match best with
      | some b =>
        if score_candidate c ≤ score_candidate b then bestOf (some b) rest
        else bestOf (some c) rest
      | none => bestOf (some c) rest

/-- `select_best_root` (`reader.rs`). -/
def select_best_root (doc : HNode) : Option HNode :=
  bestOf none (selectDesc doc
    [("article").data, ("main").data, ("section").data, ("div").data])

/-- The root used by `extract_html_article` (`reader.rs`):
`select_best_root(&doc).unwrap_or_else(|| doc.root_element())`. -/
def chosen_root (doc : HNode) : HNode := (select_best_root doc).getD doc

/-- The filter of `select_best_root`: neither unlikely nor non-positively
scored. -/
def keepCand (c : HNode) : Bool :=
  !is_unlikely_candidate c && decide (0 < score_candidate c)

/-- The candidates of `select_best_root` that survive both the
unlikely-candidate filter and the positive-score requirement. -/
def goodCands (doc : HNode) : List HNode :=
  (selectDesc doc
    [("article").data, ("main").data, ("section").data, ("div").data]).filter
    keepCand

/-- Invariant of the `select_best_root` loop: the current best element is a
first maximum of the processed prefix (everything before it scores strictly
less, everything after it scores no more). -/
def BestInv (p : List HNode) : Option HNode → Prop
  | none => p = []
  | some b => ∃ p1 p2, p = p1 ++ b :: p2 ∧
      (∀ x ∈ p1, score_candidate x < score_candidate b) ∧
      (∀ x ∈ p2, score_candidate x ≤ score_candidate b)

/-- Textual payloads of a block, in the order `estimate_reading_time` visits
them (spec side of C3). -/
def blockTexts : ReaderBlock → List Str
  | .Heading _ t => [t]
  | .Paragraph t => [t]
  | .Quote t => [t]
  | .List _ items => items
  | .Code t _ => [t]
  | .Image _ alt caption => alt.toList ++ caption.toList
  | .Rule => []

/-- Non-emptiness of a block's payload as claimed for normalized output. -/
def blockNonEmpty : ReaderBlock → Prop
  | .Heading _ t => t ≠ []
  | .Paragraph t => t ≠ []
  | .Quote t => t ≠ []
  | .List _ items => items ≠ []
  | .Code t _ => t ≠ []
  | .Image url _ _ => url ≠ []
  | .Rule => True

/-- Two adjacent blocks are not duplicate paragraphs. -/
def paragraphsDiffer (a b : ReaderBlock) : Prop :=
  ∀ t, a = .Paragraph t → b ≠ .Paragraph t

/-- Every whitespace character is a plain ASCII space. -/
def onlySpaceWS (s : Str) : Bool := s.all fun c => !c.isWhitespace || c = ' '

/-- No two adjacent whitespace characters. -/
def noTwoWS : Str → Bool
  | [] => true
  | [_] => true
  | a :: b :: r => (!(a.isWhitespace && b.isWhitespace)) && noTwoWS (b :: r)

/-- The first character, if any, is not whitespace. -/
def headNotWS : Str → Bool
  | [] => true
  | c :: _ => !c.isWhitespace

/-- A minimal article value used in concrete instances. -/
def demoArticle : ReaderArticle :=
  { title := [], byline := none, site_name := none, reading_time := none,
    blocks := [] }

/-- A cached article with an empty title (C10 instance). -/
def demoCached : ReaderArticle :=
  { title := [], byline := none, site_name := none, reading_time := none,
    blocks := [ReaderBlock.Paragraph ("body").data] }

/-- A block list exercising `normalize_blocks` (C1 instance). -/
def demoBlocks : List ReaderBlock :=
  [ReaderBlock.Paragraph ("  hi   there ").data,
   ReaderBlock.Paragraph ("   ").data,
   ReaderBlock.Paragraph ("hi there").data]

/-- A `div` whose text is far below the 120-byte threshold (C4 instance). -/
def shortDiv : HNode :=
  .elem ("div").data none none none [.text ("short").data]

/-- A document with no candidate elements at all (C4 instance). -/
def emptyDoc : HNode := .elem ("html").data none none none []

/-- 32 distinct URLs filling the in-memory cache (C7 instance). -/
def demoU0 : Str := ("u0").data

/-- The other 31 URLs of the full cache (C7 instance). -/
def demoRest : List Str :=
  (List.range 31).map fun i => 'u' :: (Nat.repr (i + 1)).data

/-- The 33rd, fresh URL (C7 instance). -/
def demoNew : Str := ("v").data

/-- A full two-tier cache state holding 32 distinct URLs (C7 instance). -/
def demoState : TwoTierState :=
  { mem :=
      { reader_cache := (demoU0 :: demoRest).map fun u => (u, demoArticle),
        reader_cache_order := demoU0 :: demoRest },
    disk := [] }

/-- An image URL matching the `maybe_bad` substring `logo` (C9 instance). -/
def cexUrl : Str := ("https://example.com/logo.png").data

/-- An `alt` text of 5 scalar values but 10 UTF-8 bytes (C9 instance). -/
def cexAlt : Str := ['é', 'é', 'é', 'é', 'é']

/-- Saturating subtraction agrees with exact subtraction on the comparison
with the TTL, for operands within the `i64` range. -/
theorem i64SatSub_gt_ttl {n f : Int} (hn : inI64 n) (hf : inI64 f) :
    i64SatSub n f > DISK_CACHE_TTL_SECS ↔ n - f > 86400 := by
  obtain ⟨hn1, hn2⟩ := hn
  obtain ⟨hf1, hf2⟩ := hf
  have hmin : i64Min = -9223372036854775808 := by norm_num [i64Min]
  have hmax : i64Max = 9223372036854775807 := by norm_num [i64Max]
  rw [i64SatSub, DISK_CACHE_TTL_SECS, hmin, hmax] at *
  omega

/-- C2: a disk-cache entry is treated as stale (and `read_disk_cache`
reports a miss) exactly when `now − fetched_at > 86400` seconds, for any
`i64` time values. -/
theorem C2_cache_staleness_boundary (n f : Int) (hn : inI64 n) (hf : inI64 f) :
    (is_cache_stale f (some n) = true ↔ n - f > 86400) ∧
    (∀ e : DiskCacheEntry, e.fetched_at = f →
      (read_disk_cache (some e) (some n) = none ↔ n - f > 86400)) := by
  have hkey := i64SatSub_gt_ttl hn hf
  constructor
  · simpa [is_cache_stale] using hkey
  · intro e he
    simp [read_disk_cache, is_cache_stale, he]
    constructor
    · intro h
      exact hkey.mp (by by_contra hc; simp [hc] at h)
    · intro h
      simp [hkey.mpr h]

/-- Witness for C2 at the claimed boundary inputs: one second beyond the
24-hour TTL is a miss, one second inside it is a hit. -/
theorem C2_witness :
    is_cache_stale (1000000000 - 86401) (some 1000000000) = true ∧
    is_cache_stale (1000000000 - 86399) (some 1000000000) = false := by
  have hn : inI64 1000000000 := by constructor <;> norm_num [i64Min, i64Max]
  have h1 := C2_cache_staleness_boundary 1000000000 (1000000000 - 86401) hn
    (by constructor <;> norm_num [i64Min, i64Max])
  have h2 := C2_cache_staleness_boundary 1000000000 (1000000000 - 86399) hn
    (by constructor <;> norm_num [i64Min, i64Max])
  refine ⟨h1.1.mpr (by norm_num), ?_⟩
  by_contra hc
  have := h2.1.mp (by simpa using hc)
  omega

/-- C6: for a successful fetch whose declared content type is non-empty and
contains none of `text/plain`, `text/html`, `application/xhtml+xml`,
`load_article` fails with the unsupported-content-type error. -/
theorem C6_unsupported_content_type (url : Str) (hint : Option Str)
    (resp : FetchResponse) (pt eh : Str → ReaderArticle)
    (hstatus : statusIsSuccess resp.status = true)
    (hne : resp.content_type ≠ [])
    (h1 : containsSub resp.content_type ("text/plain").data = false)
    (h2 : containsSub resp.content_type ("text/html").data = false)
    (h3 : containsSub resp.content_type ("application/xhtml+xml").data = false) :
    load_article url none hint resp pt eh =
      (true, .error (("Unsupported content type: ").data ++ resp.content_type)) := by
  simp [load_article, hstatus, h1, h2, h3, hne]

/-- Witness for C6: a 200 response declaring `application/pdf` fails with
the unsupported-content-type error. -/
theorem C6_witness :
    load_article ("https://example.com").data none none
      { status := 200, content_type := ("application/pdf").data, body := [] }
      (fun _ => demoArticle) (fun _ => demoArticle) =
      (true, .error (("Unsupported content type: ").data ++
        ("application/pdf").data)) :=
  C6_unsupported_content_type _ _ _ _ _ (by decide) (by decide) (by decide)
    (by decide) (by decide)

/-- C10: on a fresh disk-cache hit `load_article` performs no fetch and
returns the cached article, substituting the caller's title hint only when
the cached title is empty. -/
theorem C10_disk_cache_hit (url : Str) (a : ReaderArticle) (hint : Option Str)
    (resp : FetchResponse) (pt eh : Str → ReaderArticle) :
    ((load_article url (some a) hint resp pt eh).1 = false) ∧
    (∀ h, a.title = [] → hint = some h →
      load_article url (some a) hint resp pt eh =
        (false, .ok { a with title := h })) ∧
    (a.title ≠ [] ∨ hint = none →
      load_article url (some a) hint resp pt eh = (false, .ok a)) := by
  refine ⟨?_, ?_, ?_⟩
  · by_cases ht : a.title = [] <;> cases hint <;> simp [load_article, ht]
  · intro h ht hh
    subst hh
    simp [load_article, ht]
  · rintro (ht | hh)
    · cases hint <;> simp [load_article, ht]
    · subst hh
      by_cases ht : a.title = [] <;> simp [load_article, ht]

/-- Witness for C10: a cached article with empty title takes the hint; the
fetch flag is false. -/
theorem C10_witness :
    load_article ("https://example.com").data (some demoCached)
      (some ("Hint").data)
      { status := 200, content_type := [], body := [] }
      (fun _ => demoArticle) (fun _ => demoArticle) =
      (false, .ok { demoCached with title := ("Hint").data }) :=
  (C10_disk_cache_hit _ demoCached _ _ _ _).2.1 (("Hint").data) rfl rfl

/-- `startsWith` decides the existence of a completion. -/
theorem startsWith_iff : ∀ (hay needle : Str),
    startsWith hay needle = true ↔ ∃ rest, hay = needle ++ rest
  | hay, [] => by simp [startsWith]
  | [], d :: ds => by simp [startsWith]
  | c :: cs, d :: ds => by
    simp only [startsWith, Bool.and_eq_true, decide_eq_true_eq,
      startsWith_iff cs ds, List.cons_append, List.cons.injEq]
    constructor
    · rintro ⟨rfl, rest, rfl⟩
      exact ⟨rest, rfl, rfl⟩
    · rintro ⟨rest, rfl, rfl⟩
      exact ⟨rfl, rest, rfl⟩

/-- `containsSub` decides the substring relation. -/
theorem containsSub_iff (needle : Str) : ∀ (hay : Str),
    containsSub hay needle = true ↔ ∃ l1 l2, hay = l1 ++ needle ++ l2 := by
  intro hay
  induction hay with
  | nil =>
    simp only [containsSub, startsWith_iff]
    constructor
    · rintro ⟨rest, h⟩
      exact ⟨[], rest, h⟩
    · rintro ⟨l1, l2, h⟩
      rw [List.append_assoc] at h
      cases l1 with
      | nil => exact ⟨l2, h⟩
      | cons a l1 => exact absurd h (by simp)
  | cons c cs ih =>
    simp only [containsSub, Bool.or_eq_true, startsWith_iff, ih]
    constructor
    · rintro (⟨rest, h⟩ | ⟨l1, l2, h⟩)
      · exact ⟨[], rest, by simpa using h⟩
      · exact ⟨c :: l1, l2, by simp [h]⟩
    · rintro ⟨l1, l2, h⟩
      cases l1 with
      | nil => exact Or.inl ⟨l2, by simpa using h⟩
      | cons a l1 =>
        simp only [List.cons_append, List.cons.injEq] at h
        exact Or.inr ⟨l1, l2, h.2⟩

/-- C5: the noise classifier judges an element unlikely exactly when the
lowercased combined id/class/role text contains at least one negative
keyword and no positive keyword as a substring. -/
theorem C5_unlikely_candidate_iff (idA clsA roleA : Option Str) :
    is_unlikely_attrs idA clsA roleA = true ↔
      (∃ kw ∈ NEGATIVE_KEYWORDS, ∃ l1 l2,
        asciiLower (combinedAttrs idA clsA roleA) = l1 ++ kw ++ l2) ∧
      (∀ kw ∈ POSITIVE_KEYWORDS, ¬ ∃ l1 l2,
        asciiLower (combinedAttrs idA clsA roleA) = l1 ++ kw ++ l2) := by
  have hsub := fun kw => containsSub_iff kw (asciiLower (combinedAttrs idA clsA roleA))
  simp only [is_unlikely_attrs, Bool.and_eq_true, Bool.not_eq_true',
    List.any_eq_true, hsub]
  constructor
  · rintro ⟨hneg, hpos⟩
    refine ⟨hneg, fun kw hk hc => ?_⟩
    have : POSITIVE_KEYWORDS.any
        (fun kw => containsSub (asciiLower (combinedAttrs idA clsA roleA)) kw) = true :=
      List.any_eq_true.mpr ⟨kw, hk, (hsub kw).mpr hc⟩
    rw [hpos] at this
    exact Bool.false_ne_true this
  · rintro ⟨hneg, hpos⟩
    refine ⟨hneg, ?_⟩
    by_contra hc
    rw [Bool.not_eq_false, List.any_eq_true] at hc
    obtain ⟨kw, hk, hkc⟩ := hc
    exact hpos kw hk ((hsub kw).mp hkc)

/-- Witness for C5: `role="navigation"` with no other attributes is judged
unlikely. -/
theorem C5_witness :
    is_unlikely_attrs none none (some ("navigation").data) = true :=
  (C5_unlikely_candidate_iff none none (some ("navigation").data)).mpr
    (by constructor
        · exact ⟨("nav").data, by decide, [],
            ("igation").data, by decide⟩
        · intro kw hk hc
          obtain ⟨l1, l2, h⟩ := hc
          have hfalse : containsSub
              (asciiLower (combinedAttrs none none (some ("navigation").data)))
              kw = true :=
            (containsSub_iff kw _).mpr ⟨l1, l2, h⟩
          revert hfalse
          fin_cases hk <;> decide)

/-- Boolean characterization of `is_likely_noise_image_url`. -/
theorem noise_image_bool (url : Str) (alt caption : Option Str) :
    is_likely_noise_image_url url alt caption = true ↔
      (ALWAYS_BAD.any fun k => containsSub (asciiLower url) k) = true ∨
      ((MAYBE_BAD.any fun k => containsSub (asciiLower url) k) = true ∧
        (∀ a, alt = some a → strBytes a < 8) ∧
        (∀ c, caption = some c → c = [])) := by
  unfold is_likely_noise_image_url
  by_cases hA : (ALWAYS_BAD.any fun k => containsSub (asciiLower url) k) = true
  · simp [hA]
  · rw [Bool.not_eq_true] at hA
    simp only [hA, Bool.false_eq_true, if_false, false_or]
    by_cases hM : (MAYBE_BAD.any fun k => containsSub (asciiLower url) k) = true
    · simp only [hM, if_true, true_and]
      cases alt with
      | none =>
        cases caption with
        | none => simp
        | some c =>
          simp [Bool.not_eq_true', Nat.not_le]
      | some a =>
        cases caption with
        | none =>
          simp [Bool.not_eq_true', Nat.not_le]
        | some c =>
          simp only [Option.some.injEq]
          simp only [Bool.not_eq_true', Bool.or_eq_false_iff,
            decide_eq_false_iff_not, Nat.not_le, not_not]
          constructor
          · rintro ⟨h1, h2⟩
            exact ⟨fun x hx => hx ▸ h2, fun x hx => hx ▸ h1⟩
          · rintro ⟨h1, h2⟩
            exact ⟨h2 c rfl, h1 a rfl⟩
    · rw [Bool.not_eq_true] at hM
      simp [hM]

/-- `is_likely_noise_image_url` in terms of explicit substring
decompositions. -/
theorem noise_image_iff (url : Str) (alt caption : Option Str) :
    is_likely_noise_image_url url alt caption = true ↔
      (∃ kw ∈ ALWAYS_BAD, containsSub (asciiLower url) kw = true) ∨
      ((∃ kw ∈ MAYBE_BAD, containsSub (asciiLower url) kw = true) ∧
        (∀ a, alt = some a → strBytes a < 8) ∧
        (∀ c, caption = some c → c = [])) := by
  rw [noise_image_bool]
  simp [List.any_eq_true]

/-- Counterexample for C9 as stated: the URL matches the maybe-bad
substring `logo`, there is no caption, no always-bad substring matches, and
the `alt` text has only 5 characters — yet the image is kept, because
`alt.len() >= 8` in the source counts UTF-8 bytes (here 10), not
characters. -/
theorem C9_counterexample :
    extract_image cexUrl (some cexAlt) none =
      some (.Image cexUrl (some cexAlt) none) ∧
    containsSub (asciiLower cexUrl) ("logo").data = true ∧
    (ALWAYS_BAD.any fun k => containsSub (asciiLower cexUrl) k) = false ∧
    cexAlt.length = 5 ∧ normalize_whitespace cexAlt = cexAlt := by
  refine ⟨by decide, by decide, by decide, by decide, by decide⟩

/-- C9 amended: with the alt-text threshold read as 8 UTF-8 bytes (as the
source's `alt.len() >= 8` computes), the drop condition is exact, and a
kept image yields the `Image` block with the resolved URL, normalized alt
and caption. -/
theorem C9_image_noise_filter_amended (url : Str) (altAttr caption : Option Str) :
    (extract_image url altAttr caption = none ↔
      (∃ kw ∈ ALWAYS_BAD, containsSub (asciiLower url) kw = true) ∨
      ((∃ kw ∈ MAYBE_BAD, containsSub (asciiLower url) kw = true) ∧
        (∀ a, normalizedAlt altAttr = some a → strBytes a < 8) ∧
        (∀ c, caption = some c → c = []))) ∧
    (∀ b, extract_image url altAttr caption = some b →
      b = .Image url (normalizedAlt altAttr) caption) := by
  constructor
  · constructor
    · intro h
      have hn : is_likely_noise_image_url url (normalizedAlt altAttr) caption = true := by
        by_contra hc
        rw [Bool.not_eq_true] at hc
        simp [extract_image, hc] at h
      exact (noise_image_iff url (normalizedAlt altAttr) caption).mp hn
    · intro h
      have hn := (noise_image_iff url (normalizedAlt altAttr) caption).mpr h
      simp [extract_image, hn]
  · intro b hb
    by_cases hn : is_likely_noise_image_url url (normalizedAlt altAttr) caption = true
    · simp [extract_image, hn] at hb
    · rw [Bool.not_eq_true] at hn
      simp [extract_image, hn] at hb
      exact hb.symm

/-- Witness for the amended C9: a `sprite` URL is always dropped. -/
theorem C9_witness :
    extract_image ("https://x/sprite.png").data none none = none :=
  (C9_image_noise_filter_amended ("https://x/sprite.png").data none none).1.mpr
    (Or.inl ⟨("sprite").data, by decide, by decide⟩)

/-- The inner `add_text` fold over list items adds the summed word and
character counts. -/
theorem foldl_add_text (items : List Str) : ∀ acc : Nat × Nat,
    items.foldl add_text acc =
      (acc.1 + (items.map wordCount).sum, acc.2 + (items.map List.length).sum) := by
  induction items with
  | nil => intro acc; simp
  | cons s rest ih =>
    intro acc
    simp only [List.foldl_cons, List.map_cons, List.sum_cons, ih, add_text,
      Prod.mk.injEq]
    omega

/-- One block adds its textual payloads' word and character counts. -/
theorem countBlock_eq (b : ReaderBlock) (acc : Nat × Nat) :
    countBlock acc b =
      (acc.1 + ((blockTexts b).map wordCount).sum,
       acc.2 + ((blockTexts b).map List.length).sum) := by
  cases b with
  | Heading level t => simp [countBlock, blockTexts, add_text]
  | Paragraph t => simp [countBlock, blockTexts, add_text]
  | Quote t => simp [countBlock, blockTexts, add_text]
  | List o items => simpa [countBlock, blockTexts] using foldl_add_text items acc
  | Code t lang => simp [countBlock, blockTexts, add_text]
  | Image u alt caption =>
    cases alt <;> cases caption <;>
      (simp [countBlock, blockTexts, add_text]; try omega)
  | Rule => simp [countBlock, blockTexts]

/-- The block fold of `estimate_reading_time` computes the summed counts. -/
theorem foldl_countBlock (blocks : List ReaderBlock) : ∀ acc : Nat × Nat,
    blocks.foldl countBlock acc =
      (acc.1 + (blocks.map fun b => ((blockTexts b).map wordCount).sum).sum,
       acc.2 + (blocks.map fun b => ((blockTexts b).map List.length).sum).sum) := by
  induction blocks with
  | nil => intro acc; simp
  | cons b rest ih =>
    intro acc
    simp only [List.foldl_cons, List.map_cons, List.sum_cons, ih, countBlock_eq,
      Prod.mk.injEq]
    omega

/-- C3: the reading-time estimator returns `none` exactly when both the
summed word count and the summed character count over all textual payloads
are zero, and otherwise the string `m min read` with
`m = max 1 (max ⌈words/200⌉ ⌈chars/1000⌉)`. -/
theorem C3_reading_time_formula (blocks : List ReaderBlock) :
    estimate_reading_time blocks =
      (if (blocks.map fun b => ((blockTexts b).map wordCount).sum).sum = 0 ∧
          (blocks.map fun b => ((blockTexts b).map List.length).sum).sum = 0 then
        none
      else
        some ((Nat.repr (max 1
          (max ((blocks.map fun b => ((blockTexts b).map wordCount).sum).sum ⌈/⌉ 200)
               ((blocks.map fun b => ((blockTexts b).map List.length).sum).sum ⌈/⌉ 1000)))).data ++
          (" min read").data)) := by
  have hfold := foldl_countBlock blocks (0, 0)
  simp only [Nat.zero_add] at hfold
  set W := (blocks.map fun b => ((blockTexts b).map wordCount).sum).sum with hW
  set C := (blocks.map fun b => ((blockTexts b).map List.length).sum).sum with hC
  simp only [estimate_reading_time, hfold, Nat.ceilDiv_eq_add_pred_div]
  by_cases h : W = 0 ∧ C = 0
  · simp [h]
  · have heq : max (max ((W + 199) / 200) ((C + 999) / 1000)) 1
        = max 1 (max ((W + 200 - 1) / 200) ((C + 1000 - 1) / 1000)) := by
      omega
    simp [h, heq]

/-- The eviction loop does nothing when the order queue is within
capacity. -/
theorem evictLoop_of_len_le (m : ArticleMap) (order : List Str)
    (h : order.length ≤ READER_CACHE_MAX_ENTRIES) :
    evictLoop m order = (m, order) := by
  cases order with
  | nil => rfl
  | cons u rest =>
    have hle : ¬((u :: rest).length > READER_CACHE_MAX_ENTRIES) := by omega
    rw [evictLoop, if_neg hle]

/-- The order queue left by the eviction loop never exceeds the capacity. -/
theorem evictLoop_len_le (order : List Str) : ∀ m : ArticleMap,
    (evictLoop m order).2.length ≤ READER_CACHE_MAX_ENTRIES := by
  induction order with
  | nil =>
    intro m
    simp [evictLoop, READER_CACHE_MAX_ENTRIES]
  | cons u rest ih =>
    intro m
    by_cases h : (u :: rest).length > READER_CACHE_MAX_ENTRIES
    · rw [evictLoop, if_pos h]
      exact ih _
    · rw [evictLoop, if_neg h]
      show (u :: rest).length ≤ READER_CACHE_MAX_ENTRIES
      omega

/-- `find?` is unchanged by filtering with a predicate implied by the
search predicate. -/
theorem find?_filter_of_imp {α : Type} (p q : α → Bool) (l : List α)
    (h : ∀ x, p x = true → q x = true) :
    (l.filter q).find? p = l.find? p := by
  induction l with
  | nil => rfl
  | cons a l ih =>
    by_cases hq : q a = true
    · rw [List.filter_cons_of_pos hq]
      by_cases hp : p a = true
      · rw [List.find?_cons_of_pos _ hp, List.find?_cons_of_pos _ hp]
      · rw [Bool.not_eq_true] at hp
        rw [List.find?_cons_of_neg _ (by simp [hp]),
          List.find?_cons_of_neg _ (by simp [hp]), ih]
    · rw [Bool.not_eq_true] at hq
      rw [List.filter_cons_of_neg (by simp [hq]), ih,
        List.find?_cons_of_neg _ ?_]
      intro hp
      have := h a hp
      simp [hq] at this

/-- Keys of a key-filtered association list. -/
theorem keys_filter_ne (m : ArticleMap) (k : Str) :
    ((m.filter fun p => p.1 ≠ k).map Prod.fst) =
      (m.map Prod.fst).filter fun x => x ≠ k := by
  induction m with
  | nil => rfl
  | cons a m ih =>
    by_cases h : a.1 = k
    · rw [List.filter_cons_of_neg (by simp [h]), List.map_cons,
        List.filter_cons_of_neg (by simp [h]), ih]
    · rw [List.filter_cons_of_pos (by simp [h]), List.map_cons, List.map_cons,
        List.filter_cons_of_pos (by simp [h]), ih]

/-- C7: a full in-memory cache of 32 distinct URLs, on insertion of a fresh
33rd URL, evicts exactly the front (least-recently-touched) entry of the
order queue; the other 31 entries keep their articles, the new entry is
present, the cache is back to 32 entries, the disk tier is untouched — and
in general the order queue never exceeds 32 entries after an insertion. -/
theorem C7_memory_cache_eviction (st : TwoTierState) (u0 newUrl : Str)
    (rest : List Str) (a : ReaderArticle)
    (horder : st.mem.reader_cache_order = u0 :: rest)
    (hlen : rest.length = 31)
    (hnodup : (u0 :: rest).Nodup)
    (hnew : newUrl ∉ u0 :: rest)
    (hkeys : st.mem.reader_cache.map Prod.fst = u0 :: rest) :
    (cache_reader_article_sys st newUrl a).mem.reader_cache_order =
      rest ++ [newUrl] ∧
    (cache_reader_article_sys st newUrl a).mem.reader_cache.map Prod.fst =
      newUrl :: rest ∧
    mapGet (cache_reader_article_sys st newUrl a).mem.reader_cache u0 = none ∧
    (∀ u ∈ rest,
      mapGet (cache_reader_article_sys st newUrl a).mem.reader_cache u =
        mapGet st.mem.reader_cache u) ∧
    mapGet (cache_reader_article_sys st newUrl a).mem.reader_cache newUrl =
      some a ∧
    (cache_reader_article_sys st newUrl a).mem.reader_cache.length = 32 ∧
    (cache_reader_article_sys st newUrl a).disk = st.disk ∧
    (∀ st' url art, ((cache_reader_article st' url art).reader_cache_order).length
      ≤ READER_CACHE_MAX_ENTRIES) := by
  have hnew0 : newUrl ≠ u0 := fun h => hnew (h ▸ List.mem_cons_self u0 rest)
  have hnewrest : newUrl ∉ rest := fun h => hnew (List.mem_cons_of_mem u0 h)
  have hu0rest : u0 ∉ rest := (List.nodup_cons.mp hnodup).1
  -- the filter in `touch_reader_cache` keeps the whole order queue
  have hfilter : ((u0 :: rest).filter fun u => u ≠ newUrl) = u0 :: rest := by
    apply List.filter_eq_self.mpr
    intro x hx
    simp only [ne_eq, decide_eq_true_eq, decide_not, Bool.not_eq_false']
    rw [Bool.not_eq_true']
    simp only [decide_eq_false_iff_not]
    exact fun h => hnew (h ▸ hx)
  -- the insert leaves the 32 old entries alone
  have hfilterm : (st.mem.reader_cache.filter fun p => p.1 ≠ newUrl) =
      st.mem.reader_cache := by
    apply List.filter_eq_self.mpr
    intro p hp
    have : p.1 ∈ st.mem.reader_cache.map Prod.fst := List.mem_map_of_mem _ hp
    rw [hkeys] at this
    simp only [ne_eq, decide_not, Bool.not_eq_false']
    rw [Bool.not_eq_true']
    simp only [decide_eq_false_iff_not]
    exact fun h => hnew (h ▸ this)
  -- unfold one insertion step
  have hstep : cache_reader_article st.mem newUrl a =
      { reader_cache :=
          mapRemove ((newUrl, a) :: st.mem.reader_cache) u0,
        reader_cache_order := rest ++ [newUrl] } := by
    rw [cache_reader_article]
    simp only [touch_reader_cache, mapInsert, hfilterm, horder, hfilter]
    have hgt : (u0 :: (rest ++ [newUrl])).length > READER_CACHE_MAX_ENTRIES := by
      simp [hlen, READER_CACHE_MAX_ENTRIES]
    rw [List.cons_append, evictLoop, if_pos hgt,
      evictLoop_of_len_le _ _ (by simp [hlen, READER_CACHE_MAX_ENTRIES])]
  have hm' : (cache_reader_article st.mem newUrl a).reader_cache =
      (newUrl, a) :: (st.mem.reader_cache.filter fun p => p.1 ≠ u0) := by
    rw [hstep]
    simp only [mapRemove]
    rw [List.filter_cons_of_pos (by simp [hnew0])]
  have hrestkeep : (st.mem.reader_cache.filter fun p => p.1 ≠ u0).map Prod.fst
      = rest := by
    rw [keys_filter_ne, hkeys, List.filter_cons_of_neg (by simp),
      List.filter_eq_self.mpr]
    intro x hx
    simp only [ne_eq, decide_not, Bool.not_eq_false']
    rw [Bool.not_eq_true']
    simp only [decide_eq_false_iff_not]
    exact fun h => hu0rest (h ▸ hx)
  have hkeys' : (cache_reader_article st.mem newUrl a).reader_cache.map Prod.fst
      = newUrl :: rest := by
    rw [hm', List.map_cons, hrestkeep]
  refine ⟨?_, ?_, ?_, ?_, ?_, ?_, ?_, ?_⟩
  · rw [cache_reader_article_sys, hstep]
  · exact hkeys'
  · show mapGet (cache_reader_article st.mem newUrl a).reader_cache u0 = none
    rw [mapGet, hm', List.find?_cons_of_neg _ (by simp [hnew0])]
    have hnone : (st.mem.reader_cache.filter fun p => p.1 ≠ u0).find?
        (fun p => p.1 = u0) = none := by
      apply List.find?_eq_none.mpr
      intro p hp
      have := (List.mem_filter.mp hp).2
      simpa using this
    rw [hnone]
    rfl
  · intro u hu
    have hune : u ≠ newUrl := fun h => hnewrest (h ▸ hu)
    have hune0 : u ≠ u0 := fun h => hu0rest (h ▸ hu)
    show mapGet (cache_reader_article st.mem newUrl a).reader_cache u
      = mapGet st.mem.reader_cache u
    rw [mapGet, hm', List.find?_cons_of_neg _ (by simp [Ne.symm hune]),
      find?_filter_of_imp _ _ _ ?_, mapGet]
    intro p hp
    simp only [decide_eq_true_eq] at hp
    simp only [ne_eq, decide_not, Bool.not_eq_false']
    rw [Bool.not_eq_true']
    simp only [decide_eq_false_iff_not]
    rw [hp]
    exact hune0
  · show mapGet (cache_reader_article st.mem newUrl a).reader_cache newUrl
      = some a
    rw [mapGet, hm', List.find?_cons_of_pos _ (by simp)]
    rfl
  · show (cache_reader_article st.mem newUrl a).reader_cache.length = 32
    have := congrArg List.length hkeys'
    simpa [hlen] using this
  · rfl
  · intro st' url art
    rw [cache_reader_article]
    exact evictLoop_len_le _ _

/-- Witness for C7 on a concrete full cache of 32 distinct URLs. -/
theorem C7_witness :
    mapGet (cache_reader_article_sys demoState demoNew demoArticle).mem.reader_cache
      demoU0 = none ∧
    mapGet (cache_reader_article_sys demoState demoNew demoArticle).mem.reader_cache
      demoNew = some demoArticle ∧
    (cache_reader_article_sys demoState demoNew demoArticle).mem.reader_cache.length
      = 32 ∧
    (cache_reader_article_sys demoState demoNew demoArticle).mem.reader_cache_order
      = demoRest ++ [demoNew] := by
  have h := C7_memory_cache_eviction demoState demoU0 demoNew demoRest
    demoArticle rfl (by decide) (by decide) (by decide) (by decide)
  exact ⟨h.2.2.1, h.2.2.2.2.1, h.2.2.2.2.2.1, h.1⟩

/-- Collapsed text has only ASCII spaces as whitespace. -/
theorem onlySpace_collapseWS (s : Str) : ∀ b, onlySpaceWS (collapseWS b s) = true := by
  induction s with
  | nil => intro b; rfl
  | cons c cs ih =>
    intro b
    by_cases hw : c.isWhitespace
    · cases b
      · simp only [collapseWS, hw, if_true, Bool.false_eq_true, if_false,
          onlySpaceWS, List.all_cons, Bool.and_eq_true]
        exact ⟨by decide, ih true⟩
      · simpa [collapseWS, hw] using ih true
    · simp only [collapseWS, hw, Bool.false_eq_true, if_false, onlySpaceWS,
        List.all_cons, Bool.and_eq_true]
      exact ⟨by simp [hw], ih false⟩

/-- After a space was just emitted, collapsed text cannot begin with
whitespace. -/
theorem headNot_collapseWS_true (s : Str) :
    headNotWS (collapseWS true s) = true := by
  induction s with
  | nil => rfl
  | cons c cs ih =>
    by_cases hw : c.isWhitespace
    · simpa [collapseWS, hw] using ih
    · simp [collapseWS, hw, headNotWS]

/-- `noTwoWS` on a cons. -/
theorem noTwoWS_cons (a : Char) (l : Str) :
    noTwoWS (a :: l) =
      ((match l with
        | [] => true
        | b :: _ => !(a.isWhitespace && b.isWhitespace)) && noTwoWS l) := by
  cases l with
  | nil => rfl
  | cons b r => rfl

/-- `noTwoWS` restricted to a tail. -/
theorem noTwoWS_tail {a : Char} {l : Str} (h : noTwoWS (a :: l) = true) :
    noTwoWS l = true := by
  rw [noTwoWS_cons, Bool.and_eq_true] at h
  exact h.2

/-- Collapsed text has no two adjacent whitespace characters. -/
theorem noTwo_collapseWS (s : Str) : ∀ b, noTwoWS (collapseWS b s) = true := by
  induction s with
  | nil => intro b; rfl
  | cons c cs ih =>
    intro b
    by_cases hw : c.isWhitespace
    · cases b
      · simp only [collapseWS, hw, if_true, Bool.false_eq_true, if_false]
        rw [noTwoWS_cons, Bool.and_eq_true]
        refine ⟨?_, ih true⟩
        cases hcc : collapseWS true cs with
        | nil => rfl
        | cons d r =>
          have := headNot_collapseWS_true cs
          rw [hcc] at this
          simp only [headNotWS] at this
          simp [this]
      · simpa [collapseWS, hw] using ih true
    · simp only [collapseWS, hw, Bool.false_eq_true, if_false]
      rw [noTwoWS_cons, Bool.and_eq_true]
      refine ⟨?_, ih false⟩
      cases collapseWS false cs with
      | nil => rfl
      | cons d r => simp [hw]

/-- Whitespace-free heads survive `dropWhile`. -/
theorem dropWhile_of_headNot {s : Str} (h : headNotWS s = true) :
    s.dropWhile Char.isWhitespace = s := by
  cases s with
  | nil => rfl
  | cons c cs =>
    simp only [headNotWS, Bool.not_eq_true'] at h
    simp [List.dropWhile_cons, h]

/-- The head of `dropWhile isWhitespace` is not whitespace. -/
theorem headNot_dropWhileWS (s : Str) :
    headNotWS (s.dropWhile Char.isWhitespace) = true := by
  induction s with
  | nil => rfl
  | cons c cs ih =>
    by_cases hw : c.isWhitespace
    · simpa [List.dropWhile_cons, hw] using ih
    · simp [List.dropWhile_cons, hw, headNotWS]

/-- `all` survives `dropWhile`. -/
theorem all_dropWhile (f p : Char → Bool) (s : Str) (h : s.all f = true) :
    (s.dropWhile p).all f = true := by
  induction s with
  | nil => exact h
  | cons c cs ih =>
    rw [List.all_cons, Bool.and_eq_true] at h
    by_cases hp : p c = true
    · simpa [List.dropWhile_cons, hp] using ih h.2
    · simpa [List.dropWhile_cons, hp, List.all_cons] using h

/-- `noTwoWS` survives `dropWhile isWhitespace`. -/
theorem noTwo_dropWhileWS (s : Str) (h : noTwoWS s = true) :
    noTwoWS (s.dropWhile Char.isWhitespace) = true := by
  induction s with
  | nil => exact h
  | cons c cs ih =>
    by_cases hw : c.isWhitespace
    · simpa [List.dropWhile_cons, hw] using ih (noTwoWS_tail h)
    · simpa [List.dropWhile_cons, hw] using h

/-- `all` survives `dropTrailingWS`. -/
theorem all_dropTrailingWS (f : Char → Bool) (s : Str) (h : s.all f = true) :
    (dropTrailingWS s).all f = true := by
  induction s with
  | nil => exact h
  | cons c cs ih =>
    rw [List.all_cons, Bool.and_eq_true] at h
    rw [dropTrailingWS]
    by_cases hr : dropTrailingWS cs = []
    · by_cases hw : c.isWhitespace <;> simp [hr, hw, h.1]
    · simpa [hr, List.all_cons, h.1] using ih h.2

/-- A nonempty trailing-trimmed list keeps its head. -/
theorem head?_dropTrailingWS (s : Str) (h : dropTrailingWS s ≠ []) :
    (dropTrailingWS s).head? = s.head? := by
  cases s with
  | nil => exact absurd rfl h
  | cons c cs =>
    rw [dropTrailingWS] at h ⊢
    by_cases hr : dropTrailingWS cs = []
    · by_cases hw : c.isWhitespace
      · simp [hr, hw] at h
      · simp [hr, hw]
    · simp [hr]

/-- `headNotWS` survives `dropTrailingWS`. -/
theorem headNot_dropTrailingWS (s : Str) (h : headNotWS s = true) :
    headNotWS (dropTrailingWS s) = true := by
  by_cases hr : dropTrailingWS s = []
  · simp [hr, headNotWS]
  · have hh := head?_dropTrailingWS s hr
    cases hd : dropTrailingWS s with
    | nil => exact absurd hd hr
    | cons d r =>
      rw [hd] at hh
      cases s with
      | nil => simp at hh
      | cons c cs =>
        simp only [List.head?_cons, Option.some.injEq] at hh
        simpa [headNotWS, hh] using h

/-- `noTwoWS` survives `dropTrailingWS`. -/
theorem noTwo_dropTrailingWS (s : Str) (h : noTwoWS s = true) :
    noTwoWS (dropTrailingWS s) = true := by
  induction s with
  | nil => exact h
  | cons c cs ih =>
    rw [dropTrailingWS]
    by_cases hr : dropTrailingWS cs = []
    · by_cases hw : c.isWhitespace <;> simp [hr, hw, noTwoWS]
    · simp only [hr, Bool.false_eq_true, if_false]
      cases hd : dropTrailingWS cs with
      | nil => exact absurd hd hr
      | cons d r =>
        have hh := head?_dropTrailingWS cs hr
        rw [hd] at hh
        rw [noTwoWS_cons, Bool.and_eq_true]
        have htail := ih (noTwoWS_tail h)
        rw [hd] at htail
        refine ⟨?_, htail⟩
        cases cs with
        | nil => simp at hh
        | cons e cs' =>
          simp only [List.head?_cons, Option.some.injEq] at hh
          rw [noTwoWS_cons, Bool.and_eq_true] at h
          subst hh
          exact h.1

/-- `dropTrailingWS` is idempotent. -/
theorem dropTrailingWS_idem (s : Str) :
    dropTrailingWS (dropTrailingWS s) = dropTrailingWS s := by
  induction s with
  | nil => rfl
  | cons c cs ih =>
    rw [dropTrailingWS]
    by_cases hr : dropTrailingWS cs = []
    · by_cases hw : c.isWhitespace
      · simp [hr, hw, dropTrailingWS]
      · simp [hr, hw, dropTrailingWS]
    · simp only [hr, Bool.false_eq_true, if_false]
      rw [dropTrailingWS, ih, if_neg hr]

/-- Clean text is a fixed point of the collapsing pass. -/
theorem collapseWS_fixed (s : Str) : ∀ b, onlySpaceWS s = true →
    noTwoWS s = true → (b = true → headNotWS s = true) →
    collapseWS b s = s := by
  induction s with
  | nil => intro b _ _ _; rfl
  | cons c cs ih =>
    intro b h1 h2 h3
    simp only [onlySpaceWS, List.all_cons, Bool.and_eq_true] at h1
    by_cases hw : c.isWhitespace
    · have hc : c = ' ' := by
        have := h1.1
        simp [hw] at this
        exact this
      cases b with
      | true =>
        have := h3 rfl
        simp [headNotWS, hw] at this
      | false =>
        subst hc
        simp only [collapseWS, hw, if_true, Bool.false_eq_true, if_false]
        congr 1
        refine ih true h1.2 (noTwoWS_tail h2) fun _ => ?_
        rw [noTwoWS_cons, Bool.and_eq_true] at h2
        cases cs with
        | nil => rfl
        | cons d r =>
          have := h2.1
          simp only [hw, Bool.true_and] at this
          simpa [headNotWS] using this
    · simp only [collapseWS, hw, Bool.false_eq_true, if_false]
      congr 1
      exact ih false h1.2 (noTwoWS_tail h2) (by simp)

/-- `trimWS` is idempotent. -/
theorem trimWS_idem (s : Str) : trimWS (trimWS s) = trimWS s := by
  rw [trimWS, trimWS]
  rw [dropWhile_of_headNot
    (headNot_dropTrailingWS _ (headNot_dropWhileWS s))]
  exact dropTrailingWS_idem _

/-- The head of trimmed text is not whitespace. -/
theorem headNot_trimWS (s : Str) : headNotWS (trimWS s) = true :=
  headNot_dropTrailingWS _ (headNot_dropWhileWS s)

/-- `onlySpaceWS` survives `trimWS`. -/
theorem onlySpace_trimWS (s : Str) (h : onlySpaceWS s = true) :
    onlySpaceWS (trimWS s) = true :=
  all_dropTrailingWS _ _ (all_dropWhile _ _ s h)

/-- `noTwoWS` survives `trimWS`. -/
theorem noTwo_trimWS (s : Str) (h : noTwoWS s = true) :
    noTwoWS (trimWS s) = true :=
  noTwo_dropTrailingWS _ (noTwo_dropWhileWS s h)

/-- `normalize_whitespace` is idempotent. -/
theorem normalize_whitespace_idem (s : Str) :
    normalize_whitespace (normalize_whitespace s) = normalize_whitespace s := by
  rw [normalize_whitespace, normalize_whitespace]
  rw [collapseWS_fixed (trimWS (collapseWS false s)) false
    (onlySpace_trimWS _ (onlySpace_collapseWS s false))
    (noTwo_trimWS _ (noTwo_collapseWS s false)) (by simp)]
  exact trimWS_idem _

/-- `trimWS` fixes its own output. -/
theorem trimWS_of_trimmed {s t : Str} (h : t = trimWS s) : trimWS t = t := by
  rw [h]
  exact trimWS_idem s

/-- `optNormalized` is idempotent. -/
theorem optNormalized_idem (o : Option Str) :
    optNormalized (optNormalized o) = optNormalized o := by
  cases o with
  | none => rfl
  | some s =>
    simp only [optNormalized, Option.some_bind]
    by_cases h : normalize_whitespace s = []
    · simp [h]
    · simp [h, normalize_whitespace_idem s]

/-- Per-block cleanup is idempotent: a cleaned block is a fixed point. -/
theorem cleanBlock_idem {a b : ReaderBlock} (h : cleanBlock a = some b) :
    cleanBlock b = some b := by
  cases a with
  | Heading level text =>
    by_cases ht : normalize_whitespace text = []
    · simp [cleanBlock, ht] at h
    · simp only [cleanBlock, if_neg ht, Option.some.injEq] at h
      subst h
      simp [cleanBlock, normalize_whitespace_idem, ht]
  | Paragraph text =>
    by_cases ht : normalize_whitespace text = []
    · simp [cleanBlock, ht] at h
    · simp only [cleanBlock, if_neg ht, Option.some.injEq] at h
      subst h
      simp [cleanBlock, normalize_whitespace_idem, ht]
  | Quote text =>
    by_cases ht : trimWS text = []
    · simp [cleanBlock, ht] at h
    · simp only [cleanBlock, if_neg ht, Option.some.injEq] at h
      subst h
      simp [cleanBlock, trimWS_idem, ht]
  | Code text lang =>
    by_cases ht : trimWS text = []
    · simp [cleanBlock, ht] at h
    · simp only [cleanBlock, if_neg ht, Option.some.injEq] at h
      subst h
      simp [cleanBlock, trimWS_idem, ht]
  | Rule =>
    simp only [cleanBlock, Option.some.injEq] at h
    subst h
    rfl
  | Image url alt caption =>
    by_cases hu : trimWS url = []
    · simp [cleanBlock, hu] at h
    · simp only [cleanBlock, if_neg hu, Option.some.injEq] at h
      subst h
      simp [cleanBlock, hu, optNormalized_idem]
  | List ordered items =>
    by_cases hi : (((items.map normalize_whitespace).filter
        fun s => s ≠ []).take 100) = []
    · simp only [cleanBlock, if_pos hi] at h
      exact Option.noConfusion h
    · simp only [cleanBlock, if_neg hi, Option.some.injEq] at h
      subst h
      have hmem : ∀ x ∈ ((items.map normalize_whitespace).filter
          fun s => s ≠ []).take 100,
          normalize_whitespace x = x ∧ x ≠ [] := by
        intro x hx
        have hxf := List.mem_of_mem_take hx
        have hxm := (List.mem_filter.mp hxf).1
        have hxp := (List.mem_filter.mp hxf).2
        obtain ⟨y, _, hy⟩ := List.mem_map.mp hxm
        constructor
        · rw [← hy]
          exact normalize_whitespace_idem y
        · simpa using hxp
      have hmap : (((items.map normalize_whitespace).filter
          fun s => s ≠ []).take 100).map normalize_whitespace =
          ((items.map normalize_whitespace).filter fun s => s ≠ []).take 100 := by
        rw [List.map_congr_left fun a ha => (hmem a ha).1]
        exact List.map_id _
      have hfil : ((((items.map normalize_whitespace).filter
          fun s => s ≠ []).take 100).filter fun s => s ≠ []) =
          ((items.map normalize_whitespace).filter fun s => s ≠ []).take 100 :=
        List.filter_eq_self.mpr fun a ha => by simpa using (hmem a ha).2
      have htake : ((((items.map normalize_whitespace).filter
          fun s => s ≠ []).take 100)).take 100 =
          ((items.map normalize_whitespace).filter fun s => s ≠ []).take 100 :=
        List.take_of_length_le (List.length_take_le _ _)
      simp only [cleanBlock]
      rw [hmap, hfil, htake, if_neg hi]

/-- Cleaned blocks have the non-emptiness properties of C1. -/
theorem cleanBlock_nonEmpty {a b : ReaderBlock} (h : cleanBlock a = some b) :
    blockNonEmpty b := by
  cases a with
  | Heading level text =>
    by_cases ht : normalize_whitespace text = []
    · simp [cleanBlock, ht] at h
    · simp only [cleanBlock, if_neg ht, Option.some.injEq] at h
      subst h
      exact ht
  | Paragraph text =>
    by_cases ht : normalize_whitespace text = []
    · simp [cleanBlock, ht] at h
    · simp only [cleanBlock, if_neg ht, Option.some.injEq] at h
      subst h
      exact ht
  | Quote text =>
    by_cases ht : trimWS text = []
    · simp [cleanBlock, ht] at h
    · simp only [cleanBlock, if_neg ht, Option.some.injEq] at h
      subst h
      exact ht
  | Code text lang =>
    by_cases ht : trimWS text = []
    · simp [cleanBlock, ht] at h
    · simp only [cleanBlock, if_neg ht, Option.some.injEq] at h
      subst h
      exact ht
  | Rule =>
    simp only [cleanBlock, Option.some.injEq] at h
    subst h
    trivial
  | Image url alt caption =>
    by_cases hu : trimWS url = []
    · simp [cleanBlock, hu] at h
    · simp only [cleanBlock, if_neg hu, Option.some.injEq] at h
      subst h
      intro hurl
      rw [hurl] at hu
      exact hu rfl
  | List ordered items =>
    by_cases hi : (((items.map normalize_whitespace).filter
        fun s => s ≠ []).take 100) = []
    · simp only [cleanBlock, if_pos hi] at h
      exact Option.noConfusion h
    · simp only [cleanBlock, if_neg hi, Option.some.injEq] at h
      subst h
      exact hi

/-- `isDupPar` decoded. -/
theorem isDupPar_eq_true {o : Option ReaderBlock} {c : ReaderBlock} :
    isDupPar o c = true ↔
      ∃ t, o = some (.Paragraph t) ∧ c = .Paragraph t := by
  cases o with
  | none => simp [isDupPar]
  | some p => cases p <;> cases c <;> simp [isDupPar, eq_comm]

/-- A failed duplicate check yields the `paragraphsDiffer` relation against
the accumulator head. -/
theorem paragraphsDiffer_of_not_dup {acc : List ReaderBlock}
    {c : ReaderBlock} (h : isDupPar acc.head? c = false) :
    ∀ b ∈ acc.head?, paragraphsDiffer c b := by
  intro b hb t hct hbt
  have : isDupPar acc.head? c = true := by
    rw [Option.mem_def] at hb
    rw [isDupPar_eq_true]
    exact ⟨t, by rw [hb, hbt], hct⟩
  rw [h] at this
  exact Bool.false_ne_true this

/-- Invariant of the `normalize_blocks` loop: every accumulated block is a
cleanup fixed point, no two adjacent blocks are duplicate paragraphs, and
the length never exceeds `MAX_BLOCKS`. -/
theorem normRev_inv (l : List ReaderBlock) : ∀ acc : List ReaderBlock,
    (∀ b ∈ acc, cleanBlock b = some b) →
    List.Chain' paragraphsDiffer acc →
    acc.length < MAX_BLOCKS →
    (∀ b ∈ normRev acc l, cleanBlock b = some b) ∧
    List.Chain' paragraphsDiffer (normRev acc l) ∧
    (normRev acc l).length ≤ MAX_BLOCKS := by
  induction l with
  | nil =>
    intro acc h1 h2 h3
    exact ⟨h1, h2, Nat.le_of_lt h3⟩
  | cons b rest ih =>
    intro acc h1 h2 h3
    cases hcb : cleanBlock b with
    | none => simpa [normRev, hcb] using ih acc h1 h2 h3
    | some c =>
      by_cases hdup : isDupPar acc.head? c = true
      · simpa [normRev, hcb, hdup] using ih acc h1 h2 h3
      · rw [Bool.not_eq_true] at hdup
        have hclean : ∀ x ∈ c :: acc, cleanBlock x = some x := by
          intro x hx
          rcases List.mem_cons.mp hx with hx | hx
          · rw [hx]
            exact cleanBlock_idem hcb
          · exact h1 x hx
        have hchain : List.Chain' paragraphsDiffer (c :: acc) :=
          List.chain'_cons'.mpr ⟨paragraphsDiffer_of_not_dup hdup, h2⟩
        by_cases hfull : (c :: acc).length ≥ MAX_BLOCKS
        · have : normRev acc (b :: rest) = c :: acc := by
            rw [normRev, hcb]
            simp only [hdup, Bool.false_eq_true, if_false, hfull, if_true]
          rw [this]
          refine ⟨hclean, hchain, ?_⟩
          simp only [List.length_cons]
          omega
        · have : normRev acc (b :: rest) = normRev (c :: acc) rest := by
            rw [normRev, hcb]
            simp only [hdup, Bool.false_eq_true, if_false, hfull]
          rw [this]
          refine ih (c :: acc) hclean hchain ?_
          simp only [List.length_cons] at hfull ⊢
          omega

/-- `paragraphsDiffer` is symmetric. -/
theorem paragraphsDiffer_symm {a b : ReaderBlock}
    (h : paragraphsDiffer a b) : paragraphsDiffer b a := by
  intro t hbt hat
  exact h t hat hbt

/-- C1: `normalize_blocks` output has at most 300 blocks, every block has a
non-empty payload (text for headings, paragraphs, quotes and code, at least
one item for lists, a non-empty URL for images), and no two consecutive
blocks are paragraphs with identical text. -/
theorem C1_normalize_blocks_invariants (blocks : List ReaderBlock) :
    (normalize_blocks blocks).length ≤ MAX_BLOCKS ∧
    (∀ b ∈ normalize_blocks blocks, blockNonEmpty b) ∧
    List.Chain' paragraphsDiffer (normalize_blocks blocks) := by
  have hinv := normRev_inv blocks [] (by simp) (by simp) (by simp [MAX_BLOCKS])
  refine ⟨?_, ?_, ?_⟩
  · simpa [normalize_blocks] using hinv.2.2
  · intro b hb
    rw [normalize_blocks, List.mem_reverse] at hb
    exact cleanBlock_nonEmpty (hinv.1 b hb)
  · rw [normalize_blocks, List.chain'_reverse]
    exact List.Chain'.imp (fun a b h => paragraphsDiffer_symm h) hinv.2.1

/-- Witness for C1 on a concrete block list with duplicates and blanks. -/
theorem C1_witness :
    (normalize_blocks demoBlocks).length ≤ MAX_BLOCKS ∧
    blockNonEmpty (ReaderBlock.Paragraph ("hi there").data) :=
  ⟨(C1_normalize_blocks_invariants demoBlocks).1,
   (C1_normalize_blocks_invariants demoBlocks).2.1
     (ReaderBlock.Paragraph ("hi there").data) (by decide)⟩

/-- On already-clean input within the block budget the loop copies its
input. -/
theorem normRev_fixed (l : List ReaderBlock) : ∀ acc : List ReaderBlock,
    (∀ b ∈ l, cleanBlock b = some b) →
    List.Chain' paragraphsDiffer l →
    (∀ t, acc.head? = some (.Paragraph t) → l.head? ≠ some (.Paragraph t)) →
    acc.length + l.length ≤ MAX_BLOCKS →
    normRev acc l = l.reverse ++ acc := by
  induction l with
  | nil =>
    intro acc _ _ _ _
    rfl
  | cons c rest ih =>
    intro acc h1 h2 h3 h4
    have hcc : cleanBlock c = some c := h1 c (List.mem_cons_self c rest)
    have hdup : isDupPar acc.head? c = false := by
      rw [Bool.eq_false_iff]
      intro hd
      obtain ⟨t, hacc, hct⟩ := isDupPar_eq_true.mp hd
      exact h3 t hacc (by rw [List.head?_cons, hct])
    rw [normRev, hcc]
    simp only [hdup, Bool.false_eq_true, if_false]
    by_cases hfull : (c :: acc).length ≥ MAX_BLOCKS
    · have hrest : rest = [] := by
        rw [List.length_cons] at hfull
        have := h4
        simp only [List.length_cons] at this
        exact List.length_eq_zero.mp (by omega)
      subst hrest
      rw [if_pos hfull]
      simp
    · simp only [hfull, if_false]
      have hstep := ih (c :: acc) (fun b hb => h1 b (List.mem_cons_of_mem c hb))
        (List.chain'_cons'.mp h2).2 ?_ ?_
      · rw [hstep, List.reverse_cons, List.append_assoc]
        rfl
      · intro t hh
        rw [List.head?_cons, Option.some.injEq] at hh
        intro hrt
        cases hr : rest with
        | nil => rw [hr] at hrt; simp at hrt
        | cons r rs =>
          rw [hr, List.head?_cons, Option.some.injEq] at hrt
          have hpd := (List.chain'_cons'.mp h2).1 r (by rw [hr, List.head?_cons]; rfl)
          exact hpd t (by rw [hh]) (by rw [hrt])
      · simp only [List.length_cons] at h4 ⊢
        omega

/-- C8: `normalize_blocks` is idempotent. -/
theorem C8_normalize_blocks_idempotent (blocks : List ReaderBlock) :
    normalize_blocks (normalize_blocks blocks) = normalize_blocks blocks := by
  have hinv := normRev_inv blocks [] (by simp) (by simp) (by simp [MAX_BLOCKS])
  have hclean : ∀ b ∈ normalize_blocks blocks, cleanBlock b = some b := by
    intro b hb
    rw [normalize_blocks, List.mem_reverse] at hb
    exact hinv.1 b hb
  have hchain : List.Chain' paragraphsDiffer (normalize_blocks blocks) := by
    rw [normalize_blocks, List.chain'_reverse]
    exact List.Chain'.imp (fun a b h => paragraphsDiffer_symm h) hinv.2.1
  have hlen : (normalize_blocks blocks).length ≤ MAX_BLOCKS := by
    simpa [normalize_blocks] using hinv.2.2
  have hfix := normRev_fixed (normalize_blocks blocks) [] hclean hchain
    (by simp) (by simpa using hlen)
  rw [normalize_blocks, hfix]
  simp [normalize_blocks]

/-- The `select_best_root` loop maintains the first-maximum invariant over
the processed, surviving candidates. -/
theorem bestOf_inv (l : List HNode) : ∀ (p : List HNode) (acc : Option HNode),
    BestInv p acc → BestInv (p ++ l.filter keepCand) (bestOf acc l) := by
  induction l with
  | nil =>
    intro p acc h
    simpa [bestOf] using h
  | cons c rest ih =>
    intro p acc h
    by_cases hu : is_unlikely_candidate c = true
    · have hk : keepCand c = false := by simp [keepCand, hu]
      have hb : bestOf acc (c :: rest) = bestOf acc rest := by
        rw [bestOf.eq_def]
        simp [hu]
      rw [List.filter_cons_of_neg (by simp [hk]), hb]
      exact ih p acc h
    · rw [Bool.not_eq_true] at hu
      by_cases hs : score_candidate c ≤ 0
      · have hk : keepCand c = false := by
          simp [keepCand, hu, not_lt.mpr hs]
        have hb : bestOf acc (c :: rest) = bestOf acc rest := by
          rw [bestOf.eq_def]
          simp [hu, hs]
        rw [List.filter_cons_of_neg (by simp [hk]), hb]
        exact ih p acc h
      · have hk : keepCand c = true := by
          simp [keepCand, hu, lt_of_not_le hs]
        rw [List.filter_cons_of_pos (by simp [hk])]
        have hassoc : p ++ c :: rest.filter keepCand =
            (p ++ [c]) ++ rest.filter keepCand := by
          simp
        rw [hassoc]
        cases acc with
        | none =>
          have hb : bestOf none (c :: rest) = bestOf (some c) rest := by
            rw [bestOf.eq_def]
            simp [hu, hs]
          rw [hb]
          have hp : p = [] := h
          subst hp
          exact ih [c] (some c) ⟨[], [], rfl, by simp, by simp⟩
        | some b =>
          obtain ⟨p1, p2, hp, hlt, hle⟩ := h
          by_cases hcb : score_candidate c ≤ score_candidate b
          · have hb : bestOf (some b) (c :: rest) = bestOf (some b) rest := by
              rw [bestOf.eq_def]
              simp [hu, hs, hcb]
            rw [hb]
            refine ih (p ++ [c]) (some b) ⟨p1, p2 ++ [c], ?_, hlt, ?_⟩
            · rw [hp]
              simp
            · intro x hx
              rcases List.mem_append.mp hx with hx | hx
              · exact hle x hx
              · rw [List.mem_singleton.mp hx]
                exact hcb
          · have hb : bestOf (some b) (c :: rest) = bestOf (some c) rest := by
              rw [bestOf.eq_def]
              simp [hu, hs, hcb]
            rw [hb]
            push_neg at hcb
            refine ih (p ++ [c]) (some c) ⟨p, [], by simp, ?_, by simp⟩
            intro x hx
            rw [hp] at hx
            rcases List.mem_append.mp hx with hx | hx
            · exact lt_trans (hlt x hx) hcb
            · rcases List.mem_cons.mp hx with hx | hx
              · rw [hx]
                exact hcb
              · exact lt_of_le_of_lt (hle x hx) hcb

/-- C4: the scorer forces a zero score on candidates with total text length
below 120 bytes or link density above 3/4; `select_best_root` picks, among
the {article, main, section, div} candidates that are neither unlikely nor
non-positively scored, the first one attaining the maximal score, and when
none survives the extractor falls back to the document root. -/
theorem C4_candidate_selection :
    (∀ el, element_text_len el < 120 → score_candidate el = 0) ∧
    (∀ el, linkDensity el > 3 / 4 → score_candidate el = 0) ∧
    (∀ doc, select_best_root doc = none → chosen_root doc = doc ∧
      goodCands doc = []) ∧
    (∀ doc e, select_best_root doc = some e →
      ∃ p1 p2, goodCands doc = p1 ++ e :: p2 ∧
        (∀ x ∈ p1, score_candidate x < score_candidate e) ∧
        (∀ x ∈ p2, score_candidate x ≤ score_candidate e)) := by
  have hinv : ∀ doc, BestInv (goodCands doc) (select_best_root doc) := by
    intro doc
    have := bestOf_inv (selectDesc doc
      [("article").data, ("main").data, ("section").data, ("div").data])
      [] none rfl
    simpa [select_best_root, goodCands] using this
  refine ⟨?_, ?_, ?_, ?_⟩
  · intro el h
    simp [score_candidate, h]
  · intro el h
    by_cases hlen : element_text_len el < 120
    · simp [score_candidate, hlen]
    · simp [score_candidate, hlen, h]
  · intro doc hnone
    constructor
    · rw [chosen_root, hnone]
      rfl
    · have := hinv doc
      rw [hnone] at this
      exact this
  · intro doc e hsome
    have := hinv doc
    rw [hsome] at this
    exact this

/-- Witness for C4: a short `div` scores zero; an empty document falls back
to its root. -/
theorem C4_witness :
    score_candidate shortDiv = 0 ∧ chosen_root emptyDoc = emptyDoc :=
  ⟨C4_candidate_selection.1 shortDiv (by decide),
   (C4_candidate_selection.2.2.1 emptyDoc rfl).1⟩

end OneApp
